import Mathlib

/-!
# Verification of the FIGARO inference-support engine

Shallow embedding, over exact rational arithmetic, of the numerical core of
the FIGARO repository: the zero-crossing convergence diagnostic of
`figaro/pipelines/entropy.py`, the grid construction, rejection sampler and
prior-elicitation routine of `figaro/utils.py`, and the redshift inversion of
`figaro/load.py`.  Each definition is a direct translation of the cited
Python function; floating-point numbers are modelled by `ℚ` (and by `ℝ`
where the code takes square roots), `IndexError` by `Option`/`Except`, and
the library random draws by explicit input lists.
-/

namespace Figaro

/-! ## Zero-crossing detection (`figaro/pipelines/entropy.py`, lines 154-165)

`np.sign`, `np.diff` and `np.where(...)` on a 1-d array, composed exactly as
in `zero_crossings = [(options.window + np.where(np.diff(np.sign(ac)))[0]) *
entropy_interval for ac in ang_coeff]` followed by
`endpoints.append(zc[options.zero_crossings])` (an `IndexError` flags the
run as non-converged). -/

/-- `np.sign` on a scalar: `1` for positive, `-1` for negative, `0` for zero. -/
def npSign (x : ℚ) : ℤ :=
  if 0 < x then 1 else if x < 0 then -1 else 0

/-- `np.diff` on a 1-d array: consecutive differences, length one less. -/
def npDiff : List ℤ → List ℤ
  | x :: y :: rest => (y - x) :: npDiff (y :: rest)
  | _ => []

/-- `np.where(a)[0]` on a 1-d array: the indices of the nonzero entries. -/
def npWhere (l : List ℤ) : List ℕ :=
  (List.range l.length).filter (fun i => decide (l.getD i 0 ≠ 0))

/-- The zero-crossing index list of one run's angular-coefficient series:
`np.where(np.diff(np.sign(ac)))[0]`. -/
def zeroCrossIdx (ac : List ℚ) : List ℕ :=
  npWhere (npDiff (ac.map npSign))

/-- The crossings mapped back to original sample indices:
`(options.window + np.where(...)[0]) * entropy_interval`. -/
def mappedCrossings (window interval : ℕ) (ac : List ℚ) : List ℕ :=
  (zeroCrossIdx ac).map (fun i => (window + i) * interval)

/-- One run's recorded endpoint: `zc[options.zero_crossings]`, where the
`IndexError` branch (too few crossings) yields `none` and flags the run as
non-converged. -/
def runEndpoint (zeroCrossings : ℕ) (zc : List ℕ) : Option ℕ :=
  zc.get? zeroCrossings

theorem npDiff_length : ∀ l : List ℤ, (npDiff l).length = l.length - 1
  | [] => rfl
  | [_] => rfl
  | _ :: y :: rest => by
      simpa [npDiff] using npDiff_length (y :: rest)

theorem npDiff_getD : ∀ (l : List ℤ) (i : ℕ), i + 1 < l.length →
    (npDiff l).getD i 0 = l.getD (i + 1) 0 - l.getD i 0
  | [], i, h => by simp at h
  | [_], i, h => by simp at h
  | _ :: _ :: _, 0, _ => by simp [npDiff]
  | x :: y :: rest, i + 1, h => by
      have ih := npDiff_getD (y :: rest) i (by simpa using h)
      simpa [npDiff] using ih

theorem mem_npWhere (l : List ℤ) (i : ℕ) :
    i ∈ npWhere l ↔ i < l.length ∧ l.getD i 0 ≠ 0 := by
  simp [npWhere, List.mem_filter, List.mem_range]

theorem getD_map_npSign (ac : List ℚ) (i : ℕ) (h : i < ac.length) :
    (ac.map npSign).getD i 0 = npSign (ac.getD i 0) := by
  rw [List.getD_eq_getElem?_getD, List.getElem?_map,
      List.getElem?_eq_getElem h, List.getD_eq_getElem?_getD,
      List.getElem?_eq_getElem h]
  rfl

theorem mem_zeroCrossIdx (ac : List ℚ) (i : ℕ) :
    i ∈ zeroCrossIdx ac ↔
      i + 1 < ac.length ∧ npSign (ac.getD i 0) ≠ npSign (ac.getD (i + 1) 0) := by
  rw [zeroCrossIdx, mem_npWhere, npDiff_length, List.length_map]
  constructor
  · rintro ⟨hlen, hne⟩
    have hi1 : i + 1 < ac.length := by omega
    rw [npDiff_getD _ _ (by simpa using hi1),
        getD_map_npSign _ _ hi1, getD_map_npSign _ _ (by omega)] at hne
    exact ⟨hi1, fun h => hne (by rw [h, sub_self])⟩
  · rintro ⟨hi1, hne⟩
    refine ⟨by omega, ?_⟩
    rw [npDiff_getD _ _ (by simpa using hi1),
        getD_map_npSign _ _ hi1, getD_map_npSign _ _ (by omega)]
    exact sub_ne_zero.mpr (fun h => hne h.symm)

/-- C10: the scan `np.where(np.diff(np.sign(ac)))` detects every position where
the sign (in {-1,0,+1}) of consecutive angular coefficients differs, so an
exact zero between a positive and a negative value registers two crossings,
and a transition from a nonzero value to an exact zero registers one crossing
even with no sign reversal. -/
theorem zeroCross_zero_is_boundary :
    (∀ (ac : List ℚ) (i : ℕ),
        i ∈ zeroCrossIdx ac ↔
          i + 1 < ac.length ∧ npSign (ac.getD i 0) ≠ npSign (ac.getD (i + 1) 0))
    ∧ (∀ a b : ℚ, 0 < a → b < 0 → zeroCrossIdx [a, 0, b] = [0, 1])
    ∧ (∀ a : ℚ, a ≠ 0 → zeroCrossIdx [a, 0] = [0]) := by
  refine ⟨mem_zeroCrossIdx, fun a b ha hb => ?_, fun a ha => ?_⟩
  · have hsa : npSign a = 1 := if_pos ha
    have hsb : npSign b = -1 := by rw [npSign, if_neg (not_lt.mpr hb.le), if_pos hb]
    have h0 : npSign 0 = 0 := by norm_num [npSign]
    have hmap : ([a, 0, b].map npSign) = [1, 0, -1] := by simp [hsa, hsb, h0]
    rw [zeroCrossIdx, hmap]
    decide
  · have hsa : npSign a = 1 ∨ npSign a = -1 := by
      rcases lt_or_gt_of_ne ha with h | h
      · right; rw [npSign, if_neg (not_lt.mpr h.le), if_pos h]
      · left; exact if_pos h
    have h0 : npSign 0 = 0 := by norm_num [npSign]
    have hmap : ([a, 0].map npSign) = [npSign a, 0] := by simp [h0]
    rw [zeroCrossIdx, hmap]
    rcases hsa with h | h <;> rw [h] <;> decide

/-- C1 (amended): a run is recorded as converged iff its crossing list holds at
least `Z + 1` crossings — the code indexes `zc[Z]`, the element at 0-based
position `Z`, i.e. the (`Z`+1)-th crossing — and the recorded endpoint is that
crossing's mapped sample index `(window + offset) * entropy_interval`; runs
with at most `Z` crossings hit the `IndexError` branch and are flagged
non-converged. -/
theorem runEndpoint_needs_succ_crossings (Z window interval : ℕ) (ac : List ℚ) :
    ((runEndpoint Z (mappedCrossings window interval ac)).isSome ↔
      Z + 1 ≤ (zeroCrossIdx ac).length)
    ∧ (∀ e, runEndpoint Z (mappedCrossings window interval ac) = some e →
        ∃ i, (zeroCrossIdx ac).get? Z = some i ∧ e = (window + i) * interval) := by
  constructor
  · rw [runEndpoint, mappedCrossings, List.get?_eq_getElem?, List.getElem?_map]
    rcases Nat.lt_or_ge Z (zeroCrossIdx ac).length with h | h
    · rw [List.getElem?_eq_getElem h]
      simpa using h
    · rw [List.getElem?_eq_none h]
      simpa using Nat.lt_succ_of_le h
  · intro e he
    rw [runEndpoint, mappedCrossings, List.get?_eq_getElem?, List.getElem?_map] at he
    rcases Nat.lt_or_ge Z (zeroCrossIdx ac).length with h | h
    · refine ⟨(zeroCrossIdx ac)[Z], by rw [List.get?_eq_getElem?, List.getElem?_eq_getElem h], ?_⟩
      rw [List.getElem?_eq_getElem h] at he
      simpa using he.symm
    · rw [List.getElem?_eq_none h] at he
      simp at he

/-- C1 counterexample: an angular-coefficient series with exactly 5 sign
changes — the default `zero_crossings = 5` is met — is nevertheless flagged
non-converged, because the code reads `zc[5]`, which needs a sixth crossing. -/
theorem runEndpoint_five_crossings_cex :
    (zeroCrossIdx [1, -1, 1, -1, 1, -1]).length = 5
    ∧ runEndpoint 5 (mappedCrossings 2 1 [1, -1, 1, -1, 1, -1]) = none := by
  decide

/-! ## Bounded grid (`figaro/utils.py`, lines 16-42, `recursive_grid`)

`np.linspace(bounds[0,0], bounds[0,1], n_pts[0]+2)[1:-1]` builds the interior
points of one axis; the grid is the Cartesian product built by the nested
`for di in d: for gi in grid_nm1` loops, and the spacing of the head axis is
`d[1]-d[0]`, *appended after* the recursive call's spacing list.  The `d[1]`
access raises `IndexError` when an axis has fewer than two points; that
failure is `none`. -/

/-- `np.linspace(a, b, num)` (endpoint included). -/
def linspace (a b : ℚ) (num : ℕ) : List ℚ :=
  (List.range num).map (fun (i : ℕ) => a + (b - a) * (i : ℚ) / ((num : ℚ) - 1))

/-- `np.linspace(a, b, n+2)[1:-1]`: the `n` interior points of one axis. -/
def interiorPoints (a b : ℚ) (n : ℕ) : List ℚ :=
  ((linspace a b (n + 2)).drop 1).dropLast

/-- The spacing the code computes for one axis: `(b - a) / (n + 1)`. -/
def spacingOf (a b : ℚ) (n : ℕ) : ℚ := (b - a) / ((n : ℚ) + 1)

/-- `recursive_grid(bounds, n_pts)`: the grid as a flat list of points plus
the spacing list.  `none` models the `IndexError` of `d[1]` (an axis with
fewer than two points) or of `n_pts` running out before `bounds`. -/
def recursive_grid : List (ℚ × ℚ) → List ℕ → Option (List (List ℚ) × List ℚ)
  | [(a, b)], n :: _ =>
      match (interiorPoints a b n).get? 1, (interiorPoints a b n).get? 0 with
      | some d1, some d0 => some ((interiorPoints a b n).map (fun x => [x]), [d1 - d0])
      | _, _ => none
  | (a, b) :: p2 :: rest, n :: ns =>
      match recursive_grid (p2 :: rest) ns with
      | none => none
      | some (gridRest, diff) =>
          match (interiorPoints a b n).get? 1, (interiorPoints a b n).get? 0 with
          | some d1, some d0 =>
              some ((interiorPoints a b n).flatMap (fun di => gridRest.map (fun gi => di :: gi)),
                    diff ++ [d1 - d0])
          | _, _ => none
  | _, _ => none

theorem interiorPoints_length (a b : ℚ) (n : ℕ) :
    (interiorPoints a b n).length = n := by
  simp [interiorPoints, linspace]

theorem interiorPoints_eq (a b : ℚ) (n : ℕ) :
    interiorPoints a b n =
      (List.range n).map (fun (j : ℕ) => a + (b - a) * ((j : ℚ) + 1) / ((n : ℚ) + 1)) := by
  apply List.ext_getElem
  · rw [interiorPoints_length, List.length_map, List.length_range]
  · intro i h1 h2
    have hi : i < n := by rwa [interiorPoints_length] at h1
    simp only [interiorPoints, linspace, List.getElem_dropLast, List.getElem_drop,
        List.getElem_map, List.getElem_range]
    push_cast
    ring

theorem mem_interiorPoints (a b : ℚ) (n : ℕ) (hab : a < b) (x : ℚ)
    (hx : x ∈ interiorPoints a b n) : a < x ∧ x < b := by
  rw [interiorPoints_eq, List.mem_map] at hx
  obtain ⟨j, hj, rfl⟩ := hx
  rw [List.mem_range] at hj
  have hba : (0 : ℚ) < b - a := sub_pos.mpr hab
  have hn1 : (0 : ℚ) < (n : ℚ) + 1 := by positivity
  have hfrac0 : (0 : ℚ) < ((j : ℚ) + 1) / ((n : ℚ) + 1) := by positivity
  have hfrac1 : ((j : ℚ) + 1) / ((n : ℚ) + 1) < 1 := by
    rw [div_lt_one hn1]
    have : (j : ℚ) < (n : ℚ) := by exact_mod_cast hj
    linarith
  constructor
  · have : (0 : ℚ) < (b - a) * (((j : ℚ) + 1) / ((n : ℚ) + 1)) := by positivity
    rw [mul_div_assoc]
    linarith
  · have : (b - a) * (((j : ℚ) + 1) / ((n : ℚ) + 1)) < (b - a) * 1 :=
      mul_lt_mul_of_pos_left hfrac1 hba
    rw [mul_div_assoc]
    linarith

theorem interiorPoints_spacing (a b : ℚ) (n : ℕ) (hn : 2 ≤ n) :
    (interiorPoints a b n).get? 1 = some (a + (b - a) * 2 / ((n : ℚ) + 1))
    ∧ (interiorPoints a b n).get? 0 = some (a + (b - a) * 1 / ((n : ℚ) + 1))
    ∧ (a + (b - a) * 2 / ((n : ℚ) + 1)) - (a + (b - a) * 1 / ((n : ℚ) + 1))
        = spacingOf a b n := by
  rw [interiorPoints_eq]
  refine ⟨?_, ?_, ?_⟩
  · rw [List.get?_eq_getElem?, List.getElem?_map,
        List.getElem?_eq_getElem (by simpa using hn)]
    simp [List.getElem_range]
    norm_num
  · rw [List.get?_eq_getElem?, List.getElem?_map,
        List.getElem?_eq_getElem (by simp; omega)]
    simp [List.getElem_range]
  · rw [spacingOf]
    ring

theorem length_flatMap_map_cons (d : List ℚ) (g : List (List ℚ)) :
    (d.flatMap (fun di => g.map (fun gi => di :: gi))).length = d.length * g.length := by
  induction d with
  | nil => simp
  | cons x xs ih => simp [List.flatMap_cons, ih, Nat.succ_mul, Nat.add_comm]

/-- C3 (amended): for valid bounds and per-dimension counts that are all at
least 2 (an axis with fewer than two interior points makes the `d[1]` spacing
lookup fail), the grid has exactly `∏ counts[i]` points, every point is
strictly inside bounds in every coordinate, and the spacings list pairs the
per-axis spacing `(max_i - min_i)/(counts[i]+1)` with the axes in *reversed*
order: the head axis's spacing is appended after the recursive call's, so
`spacings` is the reverse of the axis-ordered spacing list. -/
theorem recursive_grid_spec (bounds : List (ℚ × ℚ)) (counts : List ℕ)
    (hlen : bounds.length = counts.length) (hne : bounds ≠ [])
    (hb : ∀ p ∈ bounds, p.1 < p.2) (hc : ∀ c ∈ counts, 2 ≤ c) :
    ∃ g sp, recursive_grid bounds counts = some (g, sp)
      ∧ g.length = counts.prod
      ∧ (∀ pt ∈ g, List.Forall₂ (fun (p : ℚ × ℚ) (x : ℚ) => p.1 < x ∧ x < p.2) bounds pt)
      ∧ sp = (List.zipWith (fun (p : ℚ × ℚ) (c : ℕ) => spacingOf p.1 p.2 c) bounds counts).reverse := by
  induction bounds generalizing counts with
  | nil => exact absurd rfl hne
  | cons hd tl ih =>
    obtain ⟨a, b⟩ := hd
    cases counts with
    | nil => simp at hlen
    | cons n ns =>
      have hn : 2 ≤ n := hc n (List.mem_cons_self n ns)
      have hab : a < b := hb (a, b) (List.mem_cons_self _ tl)
      obtain ⟨h1, h0, hd10⟩ := interiorPoints_spacing a b n hn
      cases tl with
      | nil =>
        have hns : ns = [] := by
          have h := hlen
          simp at h
          exact h
        subst hns
        refine ⟨(interiorPoints a b n).map (fun x => [x]),
          [(a + (b - a) * 2 / ((n : ℚ) + 1)) - (a + (b - a) * 1 / ((n : ℚ) + 1))], ?_, ?_, ?_, ?_⟩
        · simp only [recursive_grid, h1, h0]
        · simp [interiorPoints_length]
        · intro pt hpt
          rw [List.mem_map] at hpt
          obtain ⟨x, hx, rfl⟩ := hpt
          have := mem_interiorPoints a b n hab x hx
          exact List.Forall₂.cons this (List.Forall₂.nil)
        · rw [hd10]
          simp
      | cons p2 rest =>
        have hlen' : (p2 :: rest).length = ns.length := by simpa using hlen
        have hne' : p2 :: rest ≠ [] := by simp
        have hb' : ∀ p ∈ p2 :: rest, p.1 < p.2 := fun p hp => hb p (List.mem_cons_of_mem _ hp)
        have hc' : ∀ c ∈ ns, 2 ≤ c := fun c hcmem => hc c (List.mem_cons_of_mem _ hcmem)
        obtain ⟨g', sp', heq', hglen', hgmem', hsp'⟩ := ih ns hlen' hne' hb' hc'
        refine ⟨(interiorPoints a b n).flatMap (fun di => g'.map (fun gi => di :: gi)),
          sp' ++ [(a + (b - a) * 2 / ((n : ℚ) + 1)) - (a + (b - a) * 1 / ((n : ℚ) + 1))],
          ?_, ?_, ?_, ?_⟩
        · simp only [recursive_grid, heq', h1, h0]
        · rw [length_flatMap_map_cons, interiorPoints_length, hglen', List.prod_cons]
        · intro pt hpt
          rw [List.mem_flatMap] at hpt
          obtain ⟨di, hdi, hpt⟩ := hpt
          rw [List.mem_map] at hpt
          obtain ⟨gi, hgi, rfl⟩ := hpt
          exact List.Forall₂.cons (mem_interiorPoints a b n hab di hdi) (hgmem' gi hgi)
        · rw [hd10, hsp', List.zipWith_cons_cons, List.reverse_cons]

/-- C3 counterexample: for `bounds = [[0,1],[0,10]]` and `counts = [2,2]` the
code returns `spacings = [10/3, 1/3]`: the first spacing belongs to the
*second* axis, not the first as the claim states (`(max_0-min_0)/(counts_0+1)
= 1/3`). -/
theorem recursive_grid_pairing_cex :
    (recursive_grid [(0, 1), (0, 10)] [2, 2]).map (fun r => r.2) = some [10/3, 1/3]
    ∧ ¬ ((10 : ℚ)/3 = (1 - 0) / ((2 : ℚ) + 1)) := by
  have h01 : interiorPoints 0 1 2 = [1/3, 2/3] := by
    rw [interiorPoints_eq]
    norm_num [List.range_succ]
  have h010 : interiorPoints 0 10 2 = [10/3, 20/3] := by
    rw [interiorPoints_eq]
    norm_num [List.range_succ]
  constructor
  · simp only [recursive_grid, h01, h010, List.get?]
    norm_num
  · norm_num

theorem recursive_grid_spec_witness :
    ∃ g sp, recursive_grid [((0 : ℚ), 1), (0, 10)] [2, 2] = some (g, sp)
      ∧ g.length = ([2, 2] : List ℕ).prod
      ∧ (∀ pt ∈ g,
          List.Forall₂ (fun (p : ℚ × ℚ) (x : ℚ) => p.1 < x ∧ x < p.2) [((0 : ℚ), 1), (0, 10)] pt)
      ∧ sp = (List.zipWith (fun (p : ℚ × ℚ) (c : ℕ) => spacingOf p.1 p.2 c)
          [((0 : ℚ), 1), (0, 10)] [2, 2]).reverse :=
  recursive_grid_spec _ _ (by decide) (by decide) (by decide) (by decide)

/-! ## Per-run shuffling of the sample set (`figaro/pipelines/entropy.py`,
lines 107-117)

Each reconstruction run executes `np.random.shuffle(samples)`: an *in-place*
permutation of the caller's array, shared by every run.  The random
permutation drawn by one run is modelled as an explicit index list `σ`
(a permutation of `range samples.length`), and the in-place update replaces
the array by `σ.map (samples[·])`. -/

/-- One run's `np.random.shuffle(samples)`: the shared array is replaced by
its reordering along the drawn permutation `σ`. -/
def applyShuffle (σ : List ℕ) (l : List ℚ) : List ℚ :=
  σ.map (fun i => l.getD i 0)

/-- The state of the caller's sample array after the given sequence of runs,
each applying its own drawn permutation to the *shared* array. -/
def shuffleRuns (perms : List (List ℕ)) (samples : List ℚ) : List ℚ :=
  perms.foldl (fun s σ => applyShuffle σ s) samples

theorem map_getD_range (l : List ℚ) :
    (List.range l.length).map (fun i => l.getD i 0) = l := by
  induction l with
  | nil => rfl
  | cons x xs ih =>
    rw [List.length_cons, List.range_succ_eq_map, List.map_cons, List.map_map]
    have hcomp : ((fun i => (x :: xs).getD i 0) ∘ Nat.succ) = fun i => xs.getD i 0 := by
      funext i
      simp [List.getD_cons_succ]
    rw [hcomp, ih, List.getD_cons_zero]

theorem applyShuffle_perm (σ : List ℕ) (l : List ℚ)
    (h : σ.Perm (List.range l.length)) : (applyShuffle σ l).Perm l := by
  have := h.map (fun i => l.getD i 0)
  rwa [map_getD_range] at this

/-- C4 (amended): the runs do *not* leave the caller's array in its original
order — `np.random.shuffle` permutes it in place and the runs share it — but
after any number of runs the array still holds exactly the original elements
(as a multiset); only the order changes. -/
theorem shuffleRuns_perm (perms : List (List ℕ)) (samples : List ℚ)
    (hp : ∀ σ ∈ perms, σ.Perm (List.range samples.length)) :
    (shuffleRuns perms samples).Perm samples := by
  induction perms generalizing samples with
  | nil => exact List.Perm.refl _
  | cons σ rest ih =>
    have h1 : (applyShuffle σ samples).Perm samples :=
      applyShuffle_perm σ samples (hp σ (List.mem_cons_self _ _))
    have hlen : (applyShuffle σ samples).length = samples.length := h1.length_eq
    have hrest : ∀ τ ∈ rest, τ.Perm (List.range (applyShuffle σ samples).length) := by
      intro τ hτ
      rw [hlen]
      exact hp τ (List.mem_cons_of_mem _ hτ)
    exact (ih (applyShuffle σ samples) hrest).trans h1

/-- C4 counterexample: a single run drawing the transposition `[1,0]` (a
legitimate permutation of `range 2`) leaves the caller's array `[3,7]` as
`[7,3]`: same elements, different order, contradicting "the input sample
array holds the same elements in the same order as before". -/
theorem shuffleRuns_in_place_cex :
    List.Perm [1, 0] (List.range 2)
    ∧ shuffleRuns [[1, 0]] [3, 7] = [7, 3]
    ∧ shuffleRuns [[1, 0]] [3, 7] ≠ [3, 7] := by
  decide

theorem shuffleRuns_perm_witness : (shuffleRuns [[1, 0]] [3, 7]).Perm [3, 7] :=
  shuffleRuns_perm [[1, 0]] [3, 7] (by decide)

/-! ## Prior elicitation (`figaro/utils.py`, lines 70-150, `get_priors`)

The branches of `get_priors` are embedded one by one, following the code's
own block structure.  The external collaborator `transform_to_probit`
(`figaro.transform`, not part of the engine) is an abstract function
argument; the 10,000 Gaussian draws of the Monte-Carlo re-estimation branch
are an explicit input list.  Floating-point `nan` (what `np.cov` produces on
a survivor set of size ≤ 1, with only a runtime warning) is modelled by the
rational `0` that division by zero yields; in neither case is an error
raised, which is what matters below. -/

/-- The degrees-of-freedom branch (lines 104-107): `df` is used only when
`df is not None and df > dim+2`, else `dim+2`. -/
def df_out (df : Option ℚ) (dim : ℕ) : ℚ :=
  match df with
  | some d => if (dim : ℚ) + 2 < d then d else (dim : ℚ) + 2
  | none => (dim : ℚ) + 2

/-- The component-wise bounds test
`np.prod(bounds[:,0] < v) & np.prod(v < bounds[:,1])`. -/
def insideBoundsV (bounds : List (ℚ × ℚ)) (v : List ℚ) : Bool :=
  (bounds.zip v).all (fun p => decide (p.1.1 < p.2) && decide (p.2 < p.1.2))

/-- `np.mean(xs, axis=0)` for column `i` of a 2-d array. -/
def colMeanQ (xs : List (List ℚ)) (i : ℕ) : ℚ :=
  ((xs.map (fun r => r.getD i 0)).sum) / (xs.length : ℚ)

/-- `np.mean(xs, axis=0)` as a vector of `dim` column means. -/
def colMeansQ (xs : List (List ℚ)) (dim : ℕ) : List ℚ :=
  (List.range dim).map (colMeanQ xs)

/-- `np.cov(xs.T)`: the empirical covariance of the rows of `xs`, with the
default `ddof = 1` normalisation `1/(N-1)`.  For `N ≤ 1` numpy emits a
runtime warning and yields `nan`; here the division by zero yields `0` — in
both models no error is raised. -/
def empCovQ (xs : List (List ℚ)) (dim : ℕ) : List (List ℚ) :=
  (List.range dim).map (fun i => (List.range dim).map (fun j =>
    ((xs.map (fun r => (r.getD i 0 - colMeanQ xs i) * (r.getD j 0 - colMeanQ xs j))).sum)
      / ((xs.length : ℚ) - 1)))

/-- The location branch (lines 110-119): an explicit mean must pass the
strict component-wise bounds test — otherwise
`raise ValueError("Mean is outside of the given bounds")` — and is then
transformed to probit space; with samples, the probit samples' column means;
else the origin. -/
def mu_out (bounds : List (ℚ × ℚ)) (transform : List ℚ → List ℚ)
    (mean : Option (List ℚ)) (probitSamples : Option (List (List ℚ))) :
    Except String (List ℚ) :=
  match mean with
  | some m =>
      if insideBoundsV bounds m then Except.ok (transform m)
      else Except.error "Mean is outside of the given bounds"
  | none =>
      match probitSamples with
      | some ps => Except.ok (colMeansQ ps bounds.length)
      | none => Except.ok (List.replicate bounds.length 0)

/-- The Monte-Carlo re-estimation branch (lines 141-148), entered when an
explicit `cov` or `std` was given: of the 10,000 Gaussian draws (`mcDraws`,
the randomness made explicit) only those inside `bounds` are kept, the
survivors are transformed to probit space and `L_out` is re-derived as their
empirical covariance — with no guard whatsoever on how many survived. -/
def mc_L (bounds : List (ℚ × ℚ)) (transform : List ℚ → List ℚ)
    (mcDraws : List (List ℚ)) : List (List ℚ) :=
  empCovQ ((mcDraws.filter (fun s => insideBoundsV bounds s)).map transform) bounds.length

/-- C5: for every call, whatever `df` the caller passes (`None`, values at or
below `D+2`, non-integer values), the returned degrees of freedom exceed
`D+1`; the caller's value is used exactly when it exceeds `D+2`, and `D+2`
is returned otherwise. -/
theorem df_out_exceeds_dim_succ (df : Option ℚ) (dim : ℕ) :
    ((dim : ℚ) + 1 < df_out df dim)
    ∧ (∀ d, df = some d →
        ((dim : ℚ) + 2 < d → df_out df dim = d)
        ∧ (¬ (dim : ℚ) + 2 < d → df_out df dim = (dim : ℚ) + 2))
    ∧ (df = none → df_out df dim = (dim : ℚ) + 2) := by
  refine ⟨?_, ?_, ?_⟩
  · cases df with
    | none => rw [df_out]; linarith
    | some d =>
      rw [df_out]
      split_ifs with h
      · linarith
      · linarith
  · rintro d rfl
    constructor
    · intro h
      rw [df_out, if_pos h]
    · intro h
      rw [df_out, if_neg h]
  · rintro rfl
    rfl

/-- C6: `get_priors` with an explicit mean fails with the descriptive error
`"Mean is outside of the given bounds"` exactly when the mean is not
strictly inside `bounds` in every component; a strictly interior mean is
transformed to the working space and returned as `μ`.  In particular
`elicit(bounds=[[-5,5]], mean=10)` fails. -/
theorem mu_out_mean_inside (bounds : List (ℚ × ℚ)) (t : List ℚ → List ℚ)
    (m : List ℚ) (ps : Option (List (List ℚ))) :
    (insideBoundsV bounds m = true ↔
      ∀ p ∈ bounds.zip m, p.1.1 < p.2 ∧ p.2 < p.1.2)
    ∧ (insideBoundsV bounds m = true →
        mu_out bounds t (some m) ps = Except.ok (t m))
    ∧ (insideBoundsV bounds m = false →
        mu_out bounds t (some m) ps = Except.error "Mean is outside of the given bounds")
    ∧ mu_out [(-5, 5)] t (some [10]) none
        = Except.error "Mean is outside of the given bounds" := by
  refine ⟨?_, ?_, ?_, ?_⟩
  · simp [insideBoundsV, List.all_eq_true]
  · intro h
    rw [mu_out, if_pos h]
  · intro h
    rw [mu_out, if_neg (by rw [h]; exact Bool.false_ne_true)]
  · rw [mu_out, if_neg]
    decide

/-- C2 evidence: the Monte-Carlo branch has no guard on the survivor count.
At a failing input where only one of the simulated draws lands inside the
bounds, the code still returns an `L_out` (numpy: `nan` with a warning; the
model: the junk value `[[0]]`) instead of raising any reportable error. -/
theorem mc_L_no_guard_on_survivors :
    ((([[5], [7], [1], [9]] : List (List ℚ)).filter
        (fun s => insideBoundsV [(0, 2)] s)).length = 1)
    ∧ mc_L [(0, 2)] id [[5], [7], [1], [9]] = [[0]] := by
  constructor
  · decide
  · have hfilter : (([[5], [7], [1], [9]] : List (List ℚ)).filter
        (fun s => insideBoundsV [(0, 2)] s)) = [[1]] := by decide
    rw [mc_L, hfilter]
    simp [empCovQ, colMeanQ, List.range_succ]

/-! ## Λ estimated from samples (`figaro/utils.py`, lines 127-132)

`L_out = np.atleast_2d(np.cov(probit_samples.T))/9`, then
`diag = np.sqrt(np.diag(L_out))`, `stds = np.minimum(diag, 0.2)`,
`L_out = L_out*np.outer(stds, stds)/np.outer(diag, diag)`.  The square root
forces this branch into `ℝ`; the matrix is represented by its entry
function. -/

noncomputable def colMeanR (xs : List (List ℝ)) (i : ℕ) : ℝ :=
  ((xs.map (fun r => r.getD i 0)).sum) / (xs.length : ℝ)

/-- `np.cov(xs.T)` entrywise (default `ddof = 1`). -/
noncomputable def empCovR (xs : List (List ℝ)) (i j : ℕ) : ℝ :=
  ((xs.map (fun r => (r.getD i 0 - colMeanR xs i) * (r.getD j 0 - colMeanR xs j))).sum)
    / ((xs.length : ℝ) - 1)

/-- The pre-clamp matrix `np.cov(probit_samples.T)/9` (line 129). -/
noncomputable def L_samples_pre (ps : List (List ℝ)) (i j : ℕ) : ℝ :=
  empCovR ps i j / 9

/-- The clamped matrix `L_out*np.outer(stds,stds)/np.outer(diag,diag)`
(lines 130-132), entrywise. -/
noncomputable def L_samples (ps : List (List ℝ)) (i j : ℕ) : ℝ :=
  L_samples_pre ps i j
    * (min (Real.sqrt (L_samples_pre ps i i)) 0.2
        * min (Real.sqrt (L_samples_pre ps j j)) 0.2)
    / (Real.sqrt (L_samples_pre ps i i) * Real.sqrt (L_samples_pre ps j j))

theorem L_samples_diag (ps : List (List ℝ)) (i : ℕ)
    (hi : 0 < L_samples_pre ps i i) :
    L_samples ps i i = (min (Real.sqrt (L_samples_pre ps i i)) 0.2) ^ 2 := by
  have h0 : L_samples_pre ps i i ≠ 0 := ne_of_gt hi
  rw [L_samples, Real.mul_self_sqrt hi.le]
  field_simp
  ring

theorem sqrt_L_samples_diag (ps : List (List ℝ)) (i : ℕ)
    (hi : 0 < L_samples_pre ps i i) :
    Real.sqrt (L_samples ps i i) = min (Real.sqrt (L_samples_pre ps i i)) 0.2 := by
  rw [L_samples_diag ps i hi]
  exact Real.sqrt_sq (le_min (Real.sqrt_nonneg _) (by norm_num))

/-- C7: when Λ is derived from samples alone, the code works with the
empirical probit-space covariance scaled by `1/9`; every marginal standard
deviation of the returned Λ is at most `0.2`; the correlation structure is
preserved (the cross-multiplied identity below states that the output
correlation matrix equals the input's); and where the scaled covariance's
diagonal reaches `0.2²` — samples with large enough spread — the returned
per-axis standard deviation is exactly `0.2`. -/
theorem L_samples_clamped (ps : List (List ℝ)) (i j : ℕ)
    (hi : 0 < L_samples_pre ps i i) (hj : 0 < L_samples_pre ps j j) :
    (L_samples_pre ps i j = empCovR ps i j / 9)
    ∧ Real.sqrt (L_samples ps i i) ≤ 0.2
    ∧ (L_samples ps i j
        * (Real.sqrt (L_samples_pre ps i i) * Real.sqrt (L_samples_pre ps j j))
        = L_samples_pre ps i j
        * (Real.sqrt (L_samples ps i i) * Real.sqrt (L_samples ps j j)))
    ∧ ((0.2 : ℝ) ^ 2 ≤ L_samples_pre ps i i → Real.sqrt (L_samples ps i i) = 0.2) := by
  have hdi : 0 < Real.sqrt (L_samples_pre ps i i) := Real.sqrt_pos.mpr hi
  have hdj : 0 < Real.sqrt (L_samples_pre ps j j) := Real.sqrt_pos.mpr hj
  refine ⟨rfl, ?_, ?_, ?_⟩
  · rw [sqrt_L_samples_diag ps i hi]
    exact min_le_right _ _
  · rw [sqrt_L_samples_diag ps i hi, sqrt_L_samples_diag ps j hj, L_samples,
        div_mul_cancel₀ _ (mul_ne_zero hdi.ne' hdj.ne')]
  · intro hbig
    rw [sqrt_L_samples_diag ps i hi]
    have h02 : (0.2 : ℝ) ≤ Real.sqrt (L_samples_pre ps i i) := by
      have := Real.sqrt_le_sqrt hbig
      rwa [Real.sqrt_sq (by norm_num : (0 : ℝ) ≤ 0.2)] at this
    exact min_eq_right h02

theorem L_samples_clamped_witness :
    Real.sqrt (L_samples [[0, 0], [6, 3]] 0 0) = 0.2
    ∧ Real.sqrt (L_samples [[0, 0], [6, 3]] 1 1) ≤ 0.2 := by
  have h00 : L_samples_pre [[0, 0], [6, 3]] 0 0 = 2 := by
    norm_num [L_samples_pre, empCovR, colMeanR, List.getD]
  have h11 : L_samples_pre [[0, 0], [6, 3]] 1 1 = 1 / 2 := by
    norm_num [L_samples_pre, empCovR, colMeanR, List.getD]
  have hi : 0 < L_samples_pre [[0, 0], [6, 3]] 0 0 := by rw [h00]; norm_num
  have hj : 0 < L_samples_pre [[0, 0], [6, 3]] 1 1 := by rw [h11]; norm_num
  constructor
  · exact (L_samples_clamped [[0, 0], [6, 3]] 0 1 hi hj).2.2.2 (by rw [h00]; norm_num)
  · exact (L_samples_clamped [[0, 0], [6, 3]] 1 0 hj hi).2.1

/-! ## Rejection sampler (`figaro/utils.py`, lines 44-68, `rejection_sampler`)

The envelope is `top = np.max(f(x)*selfunc(x))` over the fixed probe grid
`np.linspace(bounds[0], bounds[1], 1000)`; then the loop draws `n` uniform
candidates in `bounds` and `n` uniform heights in `[0, top]` per iteration,
keeps `pts[np.where(h < probs)]` and extends `samples` until
`len(samples) >= n`, returning `np.array(samples)[:n]`.  The per-iteration
uniform draws are modelled as an explicit list of `(candidates, heights)`
batches; running out of batches before `n` points are accepted models
non-termination as `none`.  The selection function defaults to the constant
`1` in the code; here it is always explicit. -/

/-- `np.max` of a 1-d array (`0` for the empty array, never hit here). -/
def listMax : List ℚ → ℚ
  | [] => 0
  | x :: xs => xs.foldl max x

/-- The envelope `top = np.max(f(x)*selfunc(x))` over the 1000-point probe
grid. -/
def rs_top (f selfn : ℚ → ℚ) (a b : ℚ) : ℚ :=
  listMax ((linspace a b 1000).map (fun x => f x * selfn x))

/-- One iteration's accepted candidates: `pts[np.where(h < probs)]`, order
preserved. -/
def acceptedPts (f selfn : ℚ → ℚ) (pts hs : List ℚ) : List ℚ :=
  ((pts.zip hs).filter (fun ph => decide (ph.2 < f ph.1 * selfn ph.1))).map Prod.fst

/-- The `while len(samples) < n_draws` accumulation loop. -/
def rejection_loop (n : ℕ) (f selfn : ℚ → ℚ) :
    List (List ℚ × List ℚ) → List ℚ → Option (List ℚ)
  | [], acc => if n ≤ acc.length then some (acc.take n) else none
  | b :: rest, acc =>
      if n ≤ acc.length then some (acc.take n)
      else rejection_loop n f selfn rest (acc ++ acceptedPts f selfn b.1 b.2)

/-- `rejection_sampler(n_draws, f, bounds, selfunc)` with the uniform draws
made explicit. -/
def rejection_sampler (n : ℕ) (f : ℚ → ℚ) (bounds : ℚ × ℚ) (selfn : ℚ → ℚ)
    (batches : List (List ℚ × List ℚ)) : Option (List ℚ) :=
  rejection_loop n f selfn batches []

theorem rejection_loop_some (n : ℕ) (f selfn : ℚ → ℚ) :
    ∀ (batches : List (List ℚ × List ℚ)) (acc out : List ℚ),
      rejection_loop n f selfn batches acc = some out →
      out = (acc ++ (batches.map (fun b => acceptedPts f selfn b.1 b.2)).flatten).take n
      ∧ out.length = n
  | [], acc, out => by
      intro hout
      rw [rejection_loop] at hout
      split_ifs at hout with h
      · cases hout
        refine ⟨by simp, ?_⟩
        rw [List.length_take]
        omega
  | b :: rest, acc, out => by
      intro hout
      rw [rejection_loop] at hout
      split_ifs at hout with h
      · cases hout
        refine ⟨?_, ?_⟩
        · rw [List.take_append_of_le_length h]
        · rw [List.length_take]
          omega
      · obtain ⟨h1, h2⟩ :=
          rejection_loop_some n f selfn rest (acc ++ acceptedPts f selfn b.1 b.2) out hout
        refine ⟨?_, h2⟩
        rw [h1, List.map_cons, List.flatten_cons, List.append_assoc]

/-- C8: whenever the accumulation loop terminates with a result, it has
collected accepted candidates across iterations until at least `n` were
available and returned exactly the first `n` of them; every returned sample
is one of the uniform candidates (hence within bounds) and was accepted
because its uniform height in `[0, top]` fell below
`density(candidate)·selection(candidate)`. -/
theorem rejection_sampler_spec (n : ℕ) (f selfn : ℚ → ℚ) (bounds : ℚ × ℚ)
    (batches : List (List ℚ × List ℚ)) (out : List ℚ)
    (hn : 1 ≤ n)
    (hpts : ∀ b ∈ batches, ∀ x ∈ b.1, bounds.1 ≤ x ∧ x ≤ bounds.2)
    (hhs : ∀ b ∈ batches, ∀ h ∈ b.2,
      0 ≤ h ∧ h ≤ rs_top f selfn bounds.1 bounds.2)
    (hout : rejection_sampler n f bounds selfn batches = some out) :
    out.length = n
    ∧ out = ((batches.map (fun b => acceptedPts f selfn b.1 b.2)).flatten).take n
    ∧ ∀ x ∈ out, (bounds.1 ≤ x ∧ x ≤ bounds.2)
        ∧ ∃ h, 0 ≤ h ∧ h ≤ rs_top f selfn bounds.1 bounds.2 ∧ h < f x * selfn x := by
  rw [rejection_sampler] at hout
  obtain ⟨h1, h2⟩ := rejection_loop_some n f selfn batches [] out hout
  rw [List.nil_append] at h1
  refine ⟨h2, h1, ?_⟩
  intro x hx
  rw [h1] at hx
  have hx' : x ∈ (batches.map (fun b => acceptedPts f selfn b.1 b.2)).flatten :=
    List.take_subset _ _ hx
  rw [List.mem_flatten] at hx'
  obtain ⟨l, hl, hxl⟩ := hx'
  rw [List.mem_map] at hl
  obtain ⟨bt, hbt, rfl⟩ := hl
  rw [acceptedPts, List.mem_map] at hxl
  obtain ⟨ph, hph, rfl⟩ := hxl
  rw [List.mem_filter] at hph
  obtain ⟨hzip, hacc⟩ := hph
  obtain ⟨hp1, hp2⟩ := List.of_mem_zip (by rwa [← Prod.mk.eta (p := ph)] at hzip)
  refine ⟨hpts bt hbt ph.1 hp1, ph.2, (hhs bt hbt ph.2 hp2).1, (hhs bt hbt ph.2 hp2).2, ?_⟩
  exact of_decide_eq_true hacc

theorem foldl_max_const (c : ℚ) : ∀ xs : List ℚ, ((xs.map (fun _ => c)).foldl max c) = c
  | [] => rfl
  | _ :: xs => by
      rw [List.map_cons, List.foldl_cons, max_self]
      exact foldl_max_const c xs

theorem listMax_map_const (l : List ℚ) (c : ℚ) (h : l ≠ []) :
    listMax (l.map (fun _ => c)) = c := by
  cases l with
  | nil => exact absurd rfl h
  | cons x xs =>
      rw [List.map_cons, listMax]
      exact foldl_max_const c xs

theorem rs_top_const_one : rs_top (fun _ => (1 : ℚ)) (fun _ => 1) 0 1 = 1 := by
  have hne : linspace 0 1 1000 ≠ [] := by
    have hlen : (linspace 0 1 1000).length = 1000 := by
      rw [linspace, List.length_map, List.length_range]
    intro hnil
    rw [hnil] at hlen
    simp at hlen
  have := listMax_map_const (linspace 0 1 1000) 1 hne
  rw [rs_top]
  simpa using this

theorem rejection_sampler_spec_witness :
    ∃ out, rejection_sampler 2 (fun _ => (1 : ℚ)) (0, 1) (fun _ => 1) [([0, 1], [0, 0])]
        = some out
      ∧ out.length = 2 ∧ ∀ x ∈ out, (0 : ℚ) ≤ x ∧ x ≤ 1 := by
  have hacc : acceptedPts (fun _ => (1 : ℚ)) (fun _ => 1) [0, 1] [0, 0] = [0, 1] := by
    rw [acceptedPts]
    norm_num [List.zip, List.zipWith, List.filter_cons]
  have hout : rejection_sampler 2 (fun _ => (1 : ℚ)) (0, 1) (fun _ => 1) [([0, 1], [0, 0])]
      = some [0, 1] := by
    rw [rejection_sampler, rejection_loop]
    norm_num [hacc, rejection_loop]
  have hspec := rejection_sampler_spec 2 (fun _ => (1 : ℚ)) (fun _ => 1) (0, 1)
      [([0, 1], [0, 0])] [0, 1] (by norm_num)
      (by
        intro b hb x hx
        simp only [List.mem_singleton] at hb
        subst hb
        simp only [List.mem_cons, List.mem_singleton, List.not_mem_nil, or_false] at hx
        rcases hx with rfl | rfl <;> norm_num)
      (by
        intro b hb h hh
        simp only [List.mem_singleton] at hb
        subst hb
        simp only [List.mem_cons, List.mem_singleton, List.not_mem_nil, or_false] at hh
        have htop : rs_top (fun _ => (1 : ℚ)) (fun _ => 1) ((0 : ℚ), (1 : ℚ)).1
            ((0 : ℚ), (1 : ℚ)).2 = 1 := rs_top_const_one
        rw [htop]
        rcases hh with rfl | rfl <;> norm_num)
      hout
  exact ⟨[0, 1], hout, hspec.1, fun x hx => (hspec.2.2 x hx).1⟩

/-! ## Redshift inversion (`figaro/load.py`, lines 13-26, `_find_redshift`)

`return newton(objective, 1.0, args=(omega, dl))` with
`objective(z, omega, dl) = dl - omega.LuminosityDistance_double(z)`.
Modelled from the spec: `scipy.optimize.newton` (called without a
derivative, hence the Newton-type *secant* iteration with start values
`p0 = x0` and `p1 = x0*(1+1e-4)+1e-4` for `x0 ≥ 0`, tolerance
`tol = 1.48e-8`, `maxiter = 50`) and the cosmology's luminosity-distance
function are external collaborators (spec §4.4, §6); the latter is an
abstract function argument `LD`. -/

/-- One secant run with the given fuel: the step
`p = p1 - f(p1)·(p1-p0)/(f(p1)-f(p0))` repeats until `|p - p1| ≤ tol`;
a vanishing secant denominator with `p0 ≠ p1` and exhausted fuel are
failures (`none`). -/
def secantIter (f : ℚ → ℚ) (tol : ℚ) : ℕ → ℚ → ℚ → Option ℚ
  | 0, _, _ => none
  | fuel + 1, p0, p1 =>
      if f p1 = f p0 then (if p0 = p1 then some ((p0 + p1) / 2) else none)
      else
        if |p1 - f p1 * (p1 - p0) / (f p1 - f p0) - p1| ≤ tol then
          some (p1 - f p1 * (p1 - p0) / (f p1 - f p0))
        else
          secantIter f tol fuel p1 (p1 - f p1 * (p1 - p0) / (f p1 - f p0))

/-- `_find_redshift(omega, dl)`: the 1-d root search for
`objective(z) = dl - LD(z)` started from `z0 = 1.0`. -/
def find_redshift (LD : ℚ → ℚ) (dl : ℚ) : Option ℚ :=
  secantIter (fun z => dl - LD z) (148 / 10 ^ 10) 50 1 (1 * (1 + 1 / 10 ^ 4) + 1 / 10 ^ 4)

theorem secantIter_affine (a c tol : ℚ) (ha : a ≠ 0) (htol : 0 ≤ tol) :
    ∀ (fuel : ℕ) (p0 p1 : ℚ), 2 ≤ fuel → p0 ≠ p1 →
      secantIter (fun x => a * (c - x)) tol fuel p0 p1 = some c := by
  intro fuel p0 p1 hfuel hne
  obtain ⟨m, rfl⟩ : ∃ m, fuel = m + 1 + 1 := ⟨fuel - 2, by omega⟩
  rw [secantIter]
  have hq : ¬ ((fun x => a * (c - x)) p1 = (fun x => a * (c - x)) p0) := by
    simp only
    intro h
    have h2 : c - p1 = c - p0 := mul_left_cancel₀ ha h
    exact hne (by linarith)
  rw [if_neg hq]
  have hpp : p0 - p1 ≠ 0 := sub_ne_zero.mpr hne
  have hstep : p1 - (fun x => a * (c - x)) p1 * (p1 - p0)
      / ((fun x => a * (c - x)) p1 - (fun x => a * (c - x)) p0) = c := by
    simp only
    have hd : a * (c - p1) - a * (c - p0) = a * (p0 - p1) := by ring
    rw [hd]
    field_simp
    ring
  rw [hstep]
  split_ifs with hclose
  · rfl
  · have hcne : c ≠ p1 := by
      intro h
      apply hclose
      rw [h, sub_self, abs_zero]
      exact htol
    rw [secantIter]
    have hq2 : ¬ ((fun x => a * (c - x)) c = (fun x => a * (c - x)) p1) := by
      simp only
      rw [sub_self, mul_zero]
      exact fun h => (mul_ne_zero ha (sub_ne_zero.mpr hcne)) h.symm
    rw [if_neg hq2]
    have hstep2 : c - (fun x => a * (c - x)) c * (c - p1)
        / ((fun x => a * (c - x)) c - (fun x => a * (c - x)) p1) = c := by
      simp only
      rw [sub_self, mul_zero, zero_mul, zero_div, sub_zero]
    rw [hstep2, sub_self, abs_zero, if_pos htol]

/-- C9: redshift inversion is the Newton-type (secant) 1-d root search for
`luminosity_distance(z) = target`, started from `z0 = 1.0`, and satisfies the
round-trip property: for a luminosity-distance model that is affine with
positive slope and every `z_true` in `(0, 5)`, inverting
`luminosity_distance(z_true)` recovers exactly `z_true`. -/
theorem find_redshift_round_trip (a b z : ℚ) (ha : 0 < a)
    (hz0 : 0 < z) (hz5 : z < 5) :
    find_redshift (fun x => a * x + b) (a * z + b) = some z := by
  rw [find_redshift]
  have hobj : (fun x => a * z + b - (a * x + b)) = fun x => a * (z - x) := by
    funext x
    ring
  show secantIter (fun x => a * z + b - (a * x + b)) (148 / 10 ^ 10) 50 1
      (1 * (1 + 1 / 10 ^ 4) + 1 / 10 ^ 4) = some z
  rw [hobj]
  exact secantIter_affine a z _ ha.ne' (by norm_num) 50 1 _ (by norm_num) (by norm_num)

theorem find_redshift_round_trip_witness :
    find_redshift (fun x => 7 * x + 3) (7 * 2 + 3) = some 2 :=
  find_redshift_round_trip 7 3 2 (by norm_num) (by norm_num) (by norm_num)

end Figaro
